import Mathlib

/-!
Shallow embedding of the temperament-tuner repository (`temperaments.py` and
`tuner.py`) and proofs about its temperament engine and pitch-matching step.

Modelling conventions:
* Python floats are modelled by an arbitrary linear ordered field `K` where the
  code only uses field operations and comparisons (the temperament engine), and
  by `ℝ` where logarithms and real powers appear (`np.log2`, `2 ** (cents/1200)`).
* Fallible Python code (raised exceptions) is modelled with `Option` / `Except`.
* `Note.__repr__` renders `'%s%s' % (tone, octave)`; the decimal rendering of the
  octave is modelled by an explicit fuel-based digit function so that all string
  computations reduce definitionally.
-/

/-- Decimal digits of a natural number, least significant digit first, written
with explicit fuel so the recursion is structural (`n` itself is enough fuel,
since `n / 10 < n` for `n ≥ 1`). -/
def decimalDigitsAux : ℕ → ℕ → List ℕ
  | 0, _ => []
  | _ + 1, 0 => []
  | fuel + 1, n + 1 => (n + 1) % 10 :: decimalDigitsAux fuel ((n + 1) / 10)

/-- Decimal digits of a natural number, least significant digit first. -/
def decimalDigits (n : ℕ) : List ℕ :=
  decimalDigitsAux n n

/-- Decimal rendering of a natural number, as produced by Python `str`. -/
def natRepr (n : ℕ) : String :=
  if n = 0 then "0" else (((decimalDigits n).map Nat.digitChar).reverse).asString

/-- Decimal rendering of an integer, as produced by Python `str` inside
`'%s%s' % (tone, octave)`. -/
def intRepr (o : ℤ) : String :=
  if o < 0 then "-" ++ natRepr o.natAbs else natRepr o.toNat

/-- The twelve pitch-class names, `TONES` in `temperaments.py`. -/
def TONES : List String :=
  ["C", "C#", "D", "D#", "E", "F"] ++ ["F#", "G", "G#", "A", "A#", "B"]

/-- The `Note` class: a tone name, an octave and an optional frequency
(`None` until computed). -/
structure Note (K : Type) where
  tone : String
  octave : ℤ
  frequency : Option K
deriving DecidableEq

/-- `Note.__repr__`: the string `'%s%s' % (tone, octave)`. -/
def noteRepr {K : Type} (n : Note K) : String :=
  n.tone ++ intRepr n.octave

/-- Equality of two `Note` objects as Python evaluates `a == b`: `a.__eq__(b)`
returns `repr(a) == b`, which resolves through the reflected
`b.__eq__(repr(a))` to `repr(b) == repr(a)`.  The `frequency` field plays no
part. -/
def noteEq {K : Type} (a b : Note K) : Bool :=
  noteRepr a == noteRepr b

/-- Equality of a `Note` and a plain string, as Python evaluates
`note == s`: `repr(note) == s`. -/
def noteEqStr {K : Type} (a : Note K) (s : String) : Bool :=
  noteRepr a == s

/-- One octave of the note table built by `Temperament._make_notes`: the twelve
tones at octave `o`, where the note equal to the reference note is created with
its frequency already set to the reference frequency. -/
def octaveBlock {K : Type} (o : ℤ) (ref : Note K) (refFreq : K) : List (Note K) :=
  TONES.map fun t =>
    let n : Note K := ⟨t, o, none⟩
    if noteEq n ref then { n with frequency := some refFreq } else n

/-- The note table from octave `o` for `cnt` consecutive octaves. -/
def makeNotesFrom {K : Type} (ref : Note K) (refFreq : K) : ℤ → ℕ → List (Note K)
  | _, 0 => []
  | o, cnt + 1 => octaveBlock o ref refFreq ++ makeNotesFrom ref refFreq (o + 1) cnt

/-- `Temperament._make_notes`: the full note table, twelve tones per octave for
each octave from `min_octave` to `max_octave` inclusive. -/
def make_notes {K : Type} (minOct maxOct : ℤ) (ref : Note K) (refFreq : K) :
    List (Note K) :=
  makeNotesFrom ref refFreq minOct (maxOct + 1 - minOct).toNat

/-- Placeholder note used as an out-of-range default for list access. -/
def noNote (K : Type) : Note K :=
  ⟨"", 0, none⟩

/-- `Temperament._calculate_base_freq`.  `notes.index(...)` raises `ValueError`
when the reference note is not in the table, `% len(ratios)` raises
`ZeroDivisionError` on an empty ratio table, and `notes[0]` would raise
`IndexError` on an empty table; all three error paths are collapsed to
`none`. -/
def calculate_base_freq {K : Type} [LinearOrderedField K] (notes : List (Note K))
    (ratios : List K) (ref : Note K) (refFreq : K) : Option K :=
  let idx := notes.findIdx fun n => noteEq n ref
  if idx < notes.length ∧ 0 < ratios.length then
    some ((2 : K) ^ ((notes.getD 0 (noNote K)).octave - ref.octave) * refFreq /
      ratios.getD (idx % ratios.length) 0)
  else none

/-- The frequency `Temperament._calculate_frequencies` stores into the note at
position `j`.  The loop first overwrites `notes[0].frequency` in place with
`ratios[0] * base`, and every later iteration reads that updated value back
through `self._notes[0].frequency`, so for `j ≥ 1` the assigned value is
`ratios[j % len] * 2 ** (j / len) * (ratios[0] * base)`. -/
def note_freq {K : Type} [LinearOrderedField K] (ratios : List K) (base : K)
    (j : ℕ) : K :=
  let first := ratios.getD 0 0 * base
  if j = 0 then first
  else ratios.getD (j % ratios.length) 0 * (2 : K) ^ (j / ratios.length) * first

/-- `Temperament._calculate_frequencies`, returned as the list of frequency
values assigned to the notes, in table order.  `none` models the exception the
method raises when the reference note is not in the table (or the ratio table
is empty). -/
def calculate_frequencies {K : Type} [LinearOrderedField K] (notes : List (Note K))
    (ratios : List K) (ref : Note K) (refFreq : K) : Option (List K) :=
  (calculate_base_freq notes ratios ref refFreq).map fun b =>
    (List.range notes.length).map fun j => note_freq ratios b j

/-- The `Temperament` object state. -/
structure Temperament (K : Type) where
  name : String
  reference_note : Note K
  reference_freq : K
  min_octave : ℤ
  max_octave : ℤ
  ratios : List K
  cents : List K
  notes : List (Note K)
deriving DecidableEq

/-- The read-only `frequencies` property: the `frequency` field of every note in
table order. -/
def frequencies {K : Type} (t : Temperament K) : List (Option K) :=
  t.notes.map Note.frequency

/-- Run `Temperament._calculate_frequencies` on the current fields and store the
computed frequencies into the notes in place. -/
def recalc {K : Type} [LinearOrderedField K] (t : Temperament K) :
    Option (Temperament K) :=
  (calculate_frequencies t.notes t.ratios t.reference_note t.reference_freq).map
    fun fs =>
      { t with notes := List.zipWith (fun n f => { n with frequency := some f }) t.notes fs }

/-- The `min_octave` setter.  The source calls `self._make_notes()` but discards
its return value (unlike `__init__`, which assigns it to `self._notes`), so the
note table is left unchanged and only the stored bound and the recomputed
frequencies over the stale table change. -/
def set_min_octave {K : Type} [LinearOrderedField K] (t : Temperament K) (v : ℤ) :
    Option (Temperament K) :=
  recalc { t with min_octave := v }

/-- The `max_octave` setter; same discarded `_make_notes()` call as
`set_min_octave`. -/
def set_max_octave {K : Type} [LinearOrderedField K] (t : Temperament K) (v : ℤ) :
    Option (Temperament K) :=
  recalc { t with max_octave := v }

/-- The `ratios` setter: store the ratios, recompute `cents` as
`1200 * log2(ratios)` elementwise, then recompute the frequencies. -/
noncomputable def set_ratios (t : Temperament ℝ) (rs : List ℝ) :
    Option (Temperament ℝ) :=
  recalc { t with ratios := rs, cents := rs.map fun r => 1200 * Real.logb 2 r }

/-- The `cents` setter: store the cents, recompute `ratios` as
`2 ** (cents / 1200)` elementwise, then recompute the frequencies. -/
noncomputable def set_cents (t : Temperament ℝ) (cs : List ℝ) :
    Option (Temperament ℝ) :=
  recalc { t with cents := cs, ratios := cs.map fun c => (2 : ℝ) ^ (c / 1200) }

/-- A value assigned to the `reference_note` property: either an actual `Note`
object or a value of any other Python type (identified by its type name). -/
inductive RefArg (K : Type) where
  | note (n : Note K)
  | other (typename : String)
deriving DecidableEq

/-- The `reference_note` setter: a non-`Note` value raises `ValueError` before
any state changes; a `Note` is stored and `_calculate_frequencies` runs (and
itself raises `ValueError` when the new reference note is not in the note
table). -/
def set_reference_note {K : Type} [LinearOrderedField K] (t : Temperament K)
    (v : RefArg K) : Except String (Temperament K) :=
  match v with
  | .other ty =>
      .error ("ValueError: Reference note must be of the Note type, not " ++ ty)
  | .note n =>
      match recalc { t with reference_note := n } with
      | some t2 => .ok t2
      | none => .error "ValueError: reference note is not in the note list"

/-- The 12-entry ratio table of `JustTemperament`.  Note the `19/9` entry for
A#: the class docstring promises 5-limit tuning for the black keys, but 19 is
not a 5-limit prime. -/
def justRatios {K : Type} [LinearOrderedField K] : List K :=
  [1, 16/15, 9/8, 6/5, 5/4, 4/3, 64/45, 3/2, 8/5, 5/3, 19/9, 15/8]

/-- IEEE-style value classes needed to follow the cents computation in
`Tuner.graph` through `numpy` arithmetic: a finite value, the two infinities
and NaN. -/
inductive FloatVal where
  | fin (x : ℝ)
  | pinf
  | ninf
  | nan

/-- Division of two finite floats as `numpy` performs it: division by zero
yields an infinity (or NaN for `0/0`) with a warning rather than raising. -/
noncomputable def npDiv (x y : ℝ) : FloatVal :=
  if y = 0 then (if x = 0 then .nan else if 0 < x then .pinf else .ninf)
  else .fin (x / y)

/-- `np.log2`: NaN on negative arguments, `-inf` at zero (also at `-0.0`),
and the real logarithm on positive arguments. -/
noncomputable def npLog2 : FloatVal → FloatVal
  | .fin x => if x < 0 then .nan else if x = 0 then .ninf else .fin (Real.logb 2 x)
  | .pinf => .pinf
  | .ninf => .nan
  | .nan => .nan

/-- Multiplication by the positive finite constant 1200 in
`1200 * np.log2(...)`. -/
noncomputable def mul1200 : FloatVal → FloatVal
  | .fin x => .fin (1200 * x)
  | .pinf => .pinf
  | .ninf => .ninf
  | .nan => .nan

/-- Truncation toward zero, the conversion Python `int()` applies to a finite
float. -/
noncomputable def pyTrunc (x : ℝ) : ℤ :=
  if 0 ≤ x then ⌊x⌋ else ⌈x⌉

/-- Python `int()` on a float value: truncation toward zero on finite values,
`OverflowError` on infinities, `ValueError` on NaN. -/
noncomputable def pyInt : FloatVal → Except String ℤ
  | .fin x => .ok (pyTrunc x)
  | .nan => .error "ValueError: cannot convert float NaN to integer"
  | .pinf => .error "OverflowError: cannot convert float infinity to integer"
  | .ninf => .error "OverflowError: cannot convert float infinity to integer"

/-- The cents computation of `Tuner.graph`:
`cents = int(1200 * np.log2(freq / desired_freq))`. -/
noncomputable def graph_cents (freq desired : ℝ) : Except String ℤ :=
  pyInt (mul1200 (npLog2 (npDiv freq desired)))

/-- The index-and-value scan performed by `fft.argmax()` in `Tuner.graph`:
`numpy` returns the first index attaining the maximum.  `none` models the
error `argmax` raises on an empty array. -/
def argmaxVal {K : Type} [LinearOrder K] : List K → Option (ℕ × K)
  | [] => none
  | x :: xs =>
    match argmaxVal xs with
    | none => some (0, x)
    | some (j, m) => if x < m then some (j + 1, m) else some (0, x)

/-- The reference note `Note('A', 4)`, the default `reference_note`. -/
def refA4 (K : Type) : Note K :=
  ⟨"A", 4, none⟩

/-- A `JustTemperament` state over octaves 4 to 5 (as rational arithmetic). -/
def justTemperament45 : Temperament ℚ :=
  ⟨"Just", refA4 ℚ, 440, 4, 5, justRatios, [], make_notes 4 5 (refA4 ℚ) 440⟩

/-- A `JustTemperament` state over the single octave 4. -/
def justTemperament44 : Temperament ℚ :=
  ⟨"Just", refA4 ℚ, 440, 4, 4, justRatios, [], make_notes 4 4 (refA4 ℚ) 440⟩

/-- A 12-entry positive ratio table whose first entry is 2 rather than 1. -/
def anchorRatios : List ℚ :=
  [2, 1, 1, 1, 1, 1, 1, 1, 1, 1, 1, 1]

/-- The 12-entry ratio table with every entry 1. -/
def unitRatios : List ℚ :=
  List.replicate 12 1

/-- A minimal real-valued temperament state whose note table holds the single
note A4, used to exercise the real-valued `ratios` and `cents` setters. -/
def tinyTemperamentR : Temperament ℝ :=
  ⟨"", refA4 ℝ, 440, 4, 4, [], [], [⟨"A", 4, none⟩]⟩


/-- The error message of an `Except` value, if any. -/
def exceptErrStr {A : Type} : Except String A → Option String
  | .error e => some e
  | .ok _ => none


theorem decimalDigitsAux_eq_digits :
    ∀ fuel n : ℕ, n ≤ fuel → decimalDigitsAux fuel n = Nat.digits 10 n := by
  intro fuel
  induction fuel with
  | zero =>
    intro n hn
    have h0 : n = 0 := Nat.le_zero.mp hn
    subst h0
    simp [decimalDigitsAux]
  | succ f ih =>
    intro n hn
    cases n with
    | zero => simp [decimalDigitsAux]
    | succ m =>
      rw [decimalDigitsAux, ih ((m + 1) / 10) (by omega),
        Nat.digits_def' (by norm_num : (1:ℕ) < 10) (Nat.succ_pos m)]

theorem decimalDigits_eq_digits (n : ℕ) : decimalDigits n = Nat.digits 10 n :=
  decimalDigitsAux_eq_digits n n le_rfl

theorem digitChar_injOn : ∀ a < 10, ∀ b < 10, Nat.digitChar a = Nat.digitChar b → a = b := by
  decide

theorem digitChar_ne_dash : ∀ a < 10, Nat.digitChar a ≠ '-' := by decide

theorem digitChar_isDigit : ∀ a < 10, (Nat.digitChar a).isDigit = true := by decide

theorem map_digitChar_inj :
    ∀ l1 l2 : List ℕ, (∀ x ∈ l1, x < 10) → (∀ x ∈ l2, x < 10) →
      l1.map Nat.digitChar = l2.map Nat.digitChar → l1 = l2 := by
  intro l1
  induction l1 with
  | nil =>
    intro l2 _ _ h
    cases l2 with
    | nil => rfl
    | cons b t => simp at h
  | cons a t1 ih =>
    intro l2 h1 h2 h
    cases l2 with
    | nil => simp at h
    | cons b t2 =>
      simp only [List.map_cons, List.cons.injEq] at h
      have ha : a < 10 := h1 a (by simp)
      have hb : b < 10 := h2 b (by simp)
      have hab : a = b := digitChar_injOn a ha b hb h.1
      have ht : t1 = t2 :=
        ih t2 (fun x hx => h1 x (by simp [hx])) (fun x hx => h2 x (by simp [hx])) h.2
      rw [hab, ht]

theorem digits_map_ne_single_zero (n : ℕ) (hn : n ≠ 0) :
    (Nat.digits 10 n).map Nat.digitChar ≠ ['0'] := by
  intro h
  have hone : Nat.digits 10 n = [0] := by
    cases hd : Nat.digits 10 n with
    | nil => exact absurd hd (Nat.digits_ne_nil_iff_ne_zero.mpr hn)
    | cons d t =>
      rw [hd] at h
      simp only [List.map_cons, List.cons.injEq] at h
      have hd10 : d < 10 := Nat.digits_lt_base (by norm_num) (by rw [hd]; simp)
      have hdz : d = 0 := digitChar_injOn d hd10 0 (by norm_num) (by simpa using h.1)
      have ht : t = [] := by
        cases t with
        | nil => rfl
        | cons x xs => simp at h
      rw [hdz, ht]
  have : n = 0 := by
    have h2 := Nat.ofDigits_digits 10 n
    rw [hone] at h2
    simpa using h2.symm
  exact hn this

theorem natRepr_injective : Function.Injective natRepr := by
  intro m n h
  unfold natRepr at h
  by_cases hm : m = 0 <;> by_cases hn : n = 0
  · rw [hm, hn]
  · exfalso
    rw [if_pos hm, if_neg hn] at h
    have h0 : (['0'] : List Char).asString = "0" := rfl
    rw [← h0] at h
    have hl : ['0'] = ((decimalDigits n).map Nat.digitChar).reverse :=
      List.asString_inj.mp h
    rw [decimalDigits_eq_digits] at hl
    have hrev : (Nat.digits 10 n).map Nat.digitChar = ['0'] := by
      have h2 := congrArg List.reverse hl
      simpa using h2.symm
    exact digits_map_ne_single_zero n hn hrev
  · exfalso
    rw [if_neg hm, if_pos hn] at h
    have h0 : (['0'] : List Char).asString = "0" := rfl
    rw [← h0] at h
    have hl : ((decimalDigits m).map Nat.digitChar).reverse = ['0'] :=
      List.asString_inj.mp h
    rw [decimalDigits_eq_digits] at hl
    have hrev : (Nat.digits 10 m).map Nat.digitChar = ['0'] := by
      have h2 := congrArg List.reverse hl
      simpa using h2
    exact digits_map_ne_single_zero m hm hrev
  · rw [if_neg hm, if_neg hn] at h
    have hl := List.asString_inj.mp h
    have hl2 : (decimalDigits m).map Nat.digitChar = (decimalDigits n).map Nat.digitChar :=
      List.reverse_inj.mp hl
    rw [decimalDigits_eq_digits, decimalDigits_eq_digits] at hl2
    have hdig : Nat.digits 10 m = Nat.digits 10 n :=
      map_digitChar_inj _ _ (fun x hx => Nat.digits_lt_base (by norm_num) hx)
        (fun x hx => Nat.digits_lt_base (by norm_num) hx) hl2
    exact Nat.digits_inj_iff.mp hdig

theorem natRepr_head_isDigit (n : ℕ) :
    ∀ c, (natRepr n).data.head? = some c → c.isDigit = true := by
  intro c hc
  unfold natRepr at hc
  by_cases hn : n = 0
  · rw [if_pos hn] at hc
    have hc0 : c = '0' := by
      have h0 : ("0" : String).data = ['0'] := rfl
      rw [h0] at hc
      exact (by simpa using hc : '0' = c).symm
    rw [hc0]
    rfl
  · rw [if_neg hn] at hc
    have hdata : ((((decimalDigits n).map Nat.digitChar).reverse).asString).data =
        ((decimalDigits n).map Nat.digitChar).reverse := rfl
    rw [hdata, List.head?_reverse] at hc
    have hmem : c ∈ (decimalDigits n).map Nat.digitChar := List.mem_of_mem_getLast? hc
    rw [decimalDigits_eq_digits] at hmem
    obtain ⟨d, hd, hdc⟩ := List.mem_map.mp hmem
    have hd10 : d < 10 := Nat.digits_lt_base (by norm_num) hd
    rw [← hdc]
    exact digitChar_isDigit d hd10

theorem natRepr_data_ne_nil (n : ℕ) : (natRepr n).data ≠ [] := by
  unfold natRepr
  by_cases hn : n = 0
  · rw [if_pos hn]
    simp
  · rw [if_neg hn]
    have hdata : ((((decimalDigits n).map Nat.digitChar).reverse).asString).data =
        ((decimalDigits n).map Nat.digitChar).reverse := rfl
    rw [hdata]
    simp only [ne_eq, List.reverse_eq_nil_iff, List.map_eq_nil_iff]
    rw [decimalDigits_eq_digits]
    exact Nat.digits_ne_nil_iff_ne_zero.mpr hn

theorem intRepr_head (o : ℤ) :
    ∀ c, (intRepr o).data.head? = some c → c = '-' ∨ c.isDigit = true := by
  intro c hc
  unfold intRepr at hc
  by_cases ho : o < 0
  · rw [if_pos ho] at hc
    left
    have hdash : ("-" : String).data = ['-'] := rfl
    rw [String.data_append, hdash] at hc
    simpa using hc.symm
  · rw [if_neg ho] at hc
    right
    exact natRepr_head_isDigit _ c hc

theorem intRepr_data_ne_nil (o : ℤ) : (intRepr o).data ≠ [] := by
  unfold intRepr
  by_cases ho : o < 0
  · rw [if_pos ho, String.data_append]
    simp
  · rw [if_neg ho]
    exact natRepr_data_ne_nil _

theorem intRepr_injective : Function.Injective intRepr := by
  intro a b h
  unfold intRepr at h
  by_cases ha : a < 0 <;> by_cases hb : b < 0
  · rw [if_pos ha, if_pos hb] at h
    have hdata := congrArg String.data h
    rw [String.data_append, String.data_append] at hdata
    have hdash : ("-" : String).data = ['-'] := rfl
    rw [hdash] at hdata
    simp only [List.cons_append, List.nil_append, List.cons.injEq, true_and] at hdata
    have : (natRepr a.natAbs) = natRepr b.natAbs := String.ext hdata
    have := natRepr_injective this
    omega
  · exfalso
    rw [if_pos ha, if_neg hb] at h
    have hdata := congrArg String.data h
    rw [String.data_append] at hdata
    have hdash : ("-" : String).data = ['-'] := rfl
    rw [hdash] at hdata
    have hhead : (natRepr b.toNat).data.head? = some '-' := by
      rw [← hdata]
      simp
    have := natRepr_head_isDigit b.toNat '-' hhead
    simp [Char.isDigit] at this
  · exfalso
    rw [if_neg ha, if_pos hb] at h
    have hdata := congrArg String.data h
    rw [String.data_append] at hdata
    have hdash : ("-" : String).data = ['-'] := rfl
    rw [hdash] at hdata
    have hhead : (natRepr a.toNat).data.head? = some '-' := by
      rw [hdata]
      simp
    have := natRepr_head_isDigit a.toNat '-' hhead
    simp [Char.isDigit] at this
  · rw [if_neg ha, if_neg hb] at h
    have := natRepr_injective h
    omega

theorem tone_shape :
    ∀ t ∈ TONES, t.data = [t.data.headD 'X'] ∨ t.data = [t.data.headD 'X', '#'] := by
  decide

theorem hash_not_intRepr_head (o : ℤ) (l : List Char)
    (h : (intRepr o).data = '#' :: l) : False := by
  have h2 := intRepr_head o '#' (by rw [h]; rfl)
  rcases h2 with h2 | h2
  · exact absurd h2 (by decide)
  · exact absurd h2 (by decide)

theorem tone_append_intRepr_inj {t1 t2 : String} (h1 : t1 ∈ TONES) (h2 : t2 ∈ TONES)
    {o1 o2 : ℤ} (h : t1 ++ intRepr o1 = t2 ++ intRepr o2) : t1 = t2 ∧ o1 = o2 := by
  have hd := congrArg String.data h
  rw [String.data_append, String.data_append] at hd
  rcases tone_shape t1 h1 with e1 | e1 <;> rcases tone_shape t2 h2 with e2 | e2 <;>
    rw [e1, e2] at hd <;>
    simp only [List.cons_append, List.nil_append, List.cons.injEq] at hd
  · refine ⟨String.ext ?_, intRepr_injective (String.ext hd.2)⟩
    rw [e1, e2, hd.1]
  · exact absurd hd.2 (fun hh => hash_not_intRepr_head o1 _ hh)
  · exact absurd hd.2.symm (fun hh => hash_not_intRepr_head o2 _ hh)
  · refine ⟨String.ext ?_, intRepr_injective (String.ext hd.2.2)⟩
    rw [e1, e2, hd.1]

theorem octaveBlock_length {K : Type} (o : ℤ) (ref : Note K) (rf : K) :
    (octaveBlock o ref rf).length = 12 := rfl

theorem TONES_getElem? : ∀ j < 12, TONES[j]? = some (TONES.getD j "") := by decide

theorem octaveBlock_getElem? {K : Type} (o : ℤ) (ref : Note K) (rf : K) (j : ℕ)
    (hj : j < 12) :
    (octaveBlock o ref rf)[j]? =
      some (if noteEq (⟨TONES.getD j "", o, none⟩ : Note K) ref
        then (⟨TONES.getD j "", o, some rf⟩ : Note K)
        else ⟨TONES.getD j "", o, none⟩) := by
  unfold octaveBlock
  rw [List.getElem?_map, TONES_getElem? j hj]
  rfl

theorem makeNotesFrom_length {K : Type} (ref : Note K) (rf : K) :
    ∀ (cnt : ℕ) (o : ℤ), (makeNotesFrom ref rf o cnt).length = cnt * 12 := by
  intro cnt
  induction cnt with
  | zero => intro o; rfl
  | succ c ih =>
    intro o
    show (octaveBlock o ref rf ++ makeNotesFrom ref rf (o + 1) c).length = (c + 1) * 12
    rw [List.length_append, octaveBlock_length, ih]
    ring

theorem makeNotesFrom_getElem? {K : Type} (ref : Note K) (rf : K) :
    ∀ (cnt : ℕ) (o : ℤ) (j : ℕ), j < cnt * 12 →
      (makeNotesFrom ref rf o cnt)[j]? =
        some (if noteEq (⟨TONES.getD (j % 12) "", o + (j / 12 : ℕ), none⟩ : Note K) ref
          then (⟨TONES.getD (j % 12) "", o + (j / 12 : ℕ), some rf⟩ : Note K)
          else ⟨TONES.getD (j % 12) "", o + (j / 12 : ℕ), none⟩) := by
  intro cnt
  induction cnt with
  | zero => intro o j hj; omega
  | succ c ih =>
    intro o j hj
    show (octaveBlock o ref rf ++ makeNotesFrom ref rf (o + 1) c)[j]? = _
    by_cases hc : j < 12
    · rw [List.getElem?_append_left (by rw [octaveBlock_length]; exact hc),
        octaveBlock_getElem? o ref rf j hc]
      have hm : j % 12 = j := Nat.mod_eq_of_lt hc
      have hd : j / 12 = 0 := Nat.div_eq_of_lt hc
      rw [hm, hd]
      norm_num
    · have h12 : 12 ≤ j := by omega
      rw [List.getElem?_append_right (by rw [octaveBlock_length]; exact h12),
        octaveBlock_length, ih (o + 1) (j - 12) (by omega)]
      have hm : (j - 12) % 12 = j % 12 := by omega
      have hd : (j - 12) / 12 + 1 = j / 12 := by omega
      have ho : o + 1 + ((j - 12) / 12 : ℕ) = o + (j / 12 : ℕ) := by
        rw [← hd]
        push_cast
        ring
      rw [hm, ho]

theorem TONES_getD_mem : ∀ i < 12, TONES.getD i "" ∈ TONES := by decide

theorem TONES_getD_inj : ∀ i1 < 12, ∀ i2 < 12, TONES.getD i1 "" = TONES.getD i2 "" → i1 = i2 := by
  decide

theorem make_notes_length {K : Type} (minO maxO : ℤ) (ref : Note K) (rf : K) :
    (make_notes minO maxO ref rf).length = (maxO + 1 - minO).toNat * 12 :=
  makeNotesFrom_length ref rf _ minO

theorem make_notes_getElem? {K : Type} (minO maxO : ℤ) (ref : Note K) (rf : K) (j : ℕ)
    (hj : j < (maxO + 1 - minO).toNat * 12) :
    (make_notes minO maxO ref rf)[j]? =
      some (if noteEq (⟨TONES.getD (j % 12) "", minO + (j / 12 : ℕ), none⟩ : Note K) ref
        then (⟨TONES.getD (j % 12) "", minO + (j / 12 : ℕ), some rf⟩ : Note K)
        else ⟨TONES.getD (j % 12) "", minO + (j / 12 : ℕ), none⟩) :=
  makeNotesFrom_getElem? ref rf _ minO j hj

theorem make_notes_findIdx {K : Type} (minO maxO refO : ℤ) (k : ℕ) (hk : k < 12)
    (hlo : minO ≤ refO) (hhi : refO ≤ maxO) (f : Option K) (rf : K) :
    (make_notes minO maxO (⟨TONES.getD k "", refO, f⟩ : Note K) rf).findIdx
        (fun n => noteEq n ⟨TONES.getD k "", refO, f⟩) =
      (refO - minO).toNat * 12 + k := by
  have hlen : (make_notes minO maxO (⟨TONES.getD k "", refO, f⟩ : Note K) rf).length =
      (maxO + 1 - minO).toNat * 12 := makeNotesFrom_length _ rf _ minO
  have hposlt : (refO - minO).toNat * 12 + k <
      (make_notes minO maxO (⟨TONES.getD k "", refO, f⟩ : Note K) rf).length := by
    rw [hlen]; omega
  have hPval : ∀ j, ∀ hj : j < (make_notes minO maxO
        (⟨TONES.getD k "", refO, f⟩ : Note K) rf).length,
      noteEq ((make_notes minO maxO (⟨TONES.getD k "", refO, f⟩ : Note K) rf).get ⟨j, hj⟩)
          ⟨TONES.getD k "", refO, f⟩ =
        noteEq (⟨TONES.getD (j % 12) "", minO + (j / 12 : ℕ), none⟩ : Note K)
          ⟨TONES.getD k "", refO, f⟩ := by
    intro j hj
    have h1 : (make_notes minO maxO (⟨TONES.getD k "", refO, f⟩ : Note K) rf)[j]? = _ :=
      makeNotesFrom_getElem? _ rf _ minO j (by rw [hlen] at hj; exact hj)
    have h2 := List.getElem?_eq_getElem hj
    rw [h1] at h2
    have h3 := Option.some.inj h2.symm
    rw [List.get_eq_getElem, h3]
    split
    · rfl
    · rfl
  rw [List.findIdx_eq hposlt]
  refine ⟨?_, ?_⟩
  · have hp := hPval _ hposlt
    rw [List.get_eq_getElem] at hp
    rw [hp]
    have hmod : ((refO - minO).toNat * 12 + k) % 12 = k := by omega
    have hdiv : minO + ((((refO - minO).toNat * 12 + k) / 12 : ℕ) : ℤ) = refO := by omega
    rw [hmod, hdiv]
    simp [noteEq, noteRepr]
  · intro j hji
    have hjlt : j < (make_notes minO maxO (⟨TONES.getD k "", refO, f⟩ : Note K) rf).length :=
      Nat.lt_trans hji hposlt
    have hp := hPval j hjlt
    rw [List.get_eq_getElem] at hp
    rw [hp]
    by_contra hcon
    simp only [Bool.not_eq_false] at hcon
    have hrepr : TONES.getD (j % 12) "" ++ intRepr (minO + (j / 12 : ℕ)) =
        TONES.getD k "" ++ intRepr refO := by
      have := beq_iff_eq.mp hcon
      simpa [noteRepr] using this
    have hinj := tone_append_intRepr_inj (TONES_getD_mem _ (by omega))
      (TONES_getD_mem _ hk) hrepr
    have hmodk : j % 12 = k := TONES_getD_inj _ (by omega) _ hk hinj.1
    have hdivk : (j / 12 : ℕ) = (refO - minO).toNat := by omega
    omega

theorem calculate_base_freq_make_notes {K : Type} [LinearOrderedField K]
    (minO maxO refO : ℤ) (k : ℕ) (hk : k < 12) (hlo : minO ≤ refO) (hhi : refO ≤ maxO)
    (f : Option K) (rf : K) (ratios : List K) (hr : ratios.length = 12) :
    calculate_base_freq (make_notes minO maxO (⟨TONES.getD k "", refO, f⟩ : Note K) rf)
        ratios (⟨TONES.getD k "", refO, f⟩ : Note K) rf =
      some ((2 : K) ^ (minO - refO) * rf / ratios.getD k 0) := by
  have hidx := make_notes_findIdx minO maxO refO k hk hlo hhi f rf
  have hlen : (make_notes minO maxO (⟨TONES.getD k "", refO, f⟩ : Note K) rf).length =
      (maxO + 1 - minO).toNat * 12 := makeNotesFrom_length _ rf _ minO
  have h0lt : 0 < (maxO + 1 - minO).toNat * 12 := by omega
  have h0 : (make_notes minO maxO (⟨TONES.getD k "", refO, f⟩ : Note K) rf)[0]? =
      some (if noteEq (⟨TONES.getD (0 % 12) "", minO + ((0 : ℕ) / 12 : ℕ), none⟩ : Note K)
          (⟨TONES.getD k "", refO, f⟩ : Note K)
        then (⟨TONES.getD (0 % 12) "", minO + ((0 : ℕ) / 12 : ℕ), some rf⟩ : Note K)
        else ⟨TONES.getD (0 % 12) "", minO + ((0 : ℕ) / 12 : ℕ), none⟩) :=
    makeNotesFrom_getElem? _ rf _ minO 0 h0lt
  have hoct : ((make_notes minO maxO (⟨TONES.getD k "", refO, f⟩ : Note K) rf).getD 0
      (noNote K)).octave = minO := by
    rw [List.getD_eq_getElem?_getD, h0]
    split <;> simp
  unfold calculate_base_freq
  rw [hidx, hoct]
  rw [if_pos ⟨by rw [hlen]; omega, by rw [hr]; norm_num⟩]
  rw [hr]
  have hmod : ((refO - minO).toNat * 12 + k) % 12 = k := by omega
  rw [hmod]

theorem calculate_frequencies_some {K : Type} [LinearOrderedField K]
    {notes : List (Note K)} {ratios : List K} {ref : Note K} {rf b : K}
    (h : calculate_base_freq notes ratios ref rf = some b) :
    calculate_frequencies notes ratios ref rf =
      some ((List.range notes.length).map fun j => note_freq ratios b j) := by
  unfold calculate_frequencies
  rw [h]
  rfl

theorem range_map_getD {K : Type} (n j : ℕ) (g : ℕ → K) (d : K) (hj : j < n) :
    ((List.range n).map g).getD j d = g j := by
  rw [List.getD_eq_getElem?_getD, List.getElem?_map, List.getElem?_range hj]
  rfl

theorem note_freq_zero {K : Type} [LinearOrderedField K] (ratios : List K) (b : K) :
    note_freq ratios b 0 = ratios.getD 0 0 * b := rfl

theorem note_freq_pos_idx {K : Type} [LinearOrderedField K] (ratios : List K) (b : K)
    (j : ℕ) (hj : j ≠ 0) :
    note_freq ratios b j =
      ratios.getD (j % ratios.length) 0 * (2 : K) ^ (j / ratios.length) *
        (ratios.getD 0 0 * b) := by
  unfold note_freq
  rw [if_neg hj]

/-- C1: the claim says assigning `min_octave` or `max_octave` must rebuild the
note table so that `notes` has length `12 * (max_octave - min_octave + 1)`.
The code calls `_make_notes()` in both setters but discards its return value,
so the table is never rebuilt: starting from a Just temperament over octaves
4-5 (24 notes), setting `max_octave := 4` leaves 24 notes although
`12 * (4 - 4 + 1) = 12`, and setting `min_octave := 5` leaves 24 notes although
`12 * (5 - 5 + 1) = 12`. -/
theorem c1_octave_setters_keep_stale_note_table :
    (set_max_octave justTemperament45 4).map
        (fun t => (t.min_octave, t.max_octave, t.notes.length)) = some (4, 4, 24) ∧
      (set_min_octave justTemperament45 5).map
        (fun t => (t.min_octave, t.max_octave, t.notes.length)) = some (5, 5, 24) ∧
      12 * (4 - 4 + 1) < 24 ∧ 12 * (5 - 5 + 1) < 24 := by
  refine ⟨by decide, by decide, by decide, by decide⟩

/-- C4: the claim says every concrete temperament table (including Just) yields
strictly increasing frequencies.  The Just table contains `19/9 ≈ 2.111` for A#
followed by `15/8 = 1.875` for B (contradicting the class docstring, which
promises 5-limit tuning for the black keys), so with the default octave range
0-8 the computed frequencies at indices 10 (A#0) and 11 (B0) are `209/6` and
`495/16`, a strictly decreasing adjacent pair. -/
theorem c4_just_table_breaks_monotonicity :
    ((calculate_frequencies (make_notes 0 8 (refA4 ℚ) 440) justRatios (refA4 ℚ) 440).map
      fun fs => (fs.getD 10 0, fs.getD 11 0)) = some (209/6, 495/16) ∧
      (495/16 : ℚ) < 209/6 := by
  have hbase : calculate_base_freq (make_notes 0 8 (refA4 ℚ) 440) justRatios (refA4 ℚ) 440 =
      some ((2 : ℚ) ^ ((0 : ℤ) - 4) * 440 / justRatios.getD 9 0) :=
    calculate_base_freq_make_notes 0 8 4 9 (by norm_num) (by norm_num) (by norm_num)
      none 440 justRatios rfl
  have hfreq := calculate_frequencies_some hbase
  rw [hfreq]
  have hlen : (make_notes 0 8 (refA4 ℚ) 440).length = 108 := by
    have := makeNotesFrom_length (refA4 ℚ) (440 : ℚ) (8 + 1 - 0 : ℤ).toNat 0
    simpa [make_notes] using this
  rw [hlen]
  constructor
  · rw [Option.map_some']
    rw [range_map_getD 108 10 _ 0 (by norm_num), range_map_getD 108 11 _ 0 (by norm_num)]
    rw [note_freq_pos_idx _ _ 10 (by norm_num), note_freq_pos_idx _ _ 11 (by norm_num)]
    norm_num [justRatios]
  · norm_num

/-- C5 counterexample: the claim quantifies over every temperament with a
12-entry positive ratio table, but when `ratios[0] ≠ 1` the in-place overwrite
of the first note multiplies every frequency by `ratios[0]`, so the reference
note does not receive the reference frequency.  With the positive table
`[2, 1, ..., 1]` over octave 4 and reference A4 = 440, the unique note with
tone A and octave 4 sits at index 9 and is assigned 880, not 440. -/
theorem c5_counterexample_ratio0_not_one :
    ((make_notes 4 4 (refA4 ℚ) 440)[9]?).map (fun n => (n.tone, n.octave)) =
        some ("A", 4) ∧
      ((calculate_frequencies (make_notes 4 4 (refA4 ℚ) 440) anchorRatios (refA4 ℚ) 440).map
        fun fs => fs.getD 9 0) = some 880 ∧ (880 : ℚ) ≠ 440 := by
  refine ⟨by decide, ?_, by norm_num⟩
  have hbase : calculate_base_freq (make_notes 4 4 (refA4 ℚ) 440) anchorRatios (refA4 ℚ) 440 =
      some ((2 : ℚ) ^ ((4 : ℤ) - 4) * 440 / anchorRatios.getD 9 0) :=
    calculate_base_freq_make_notes 4 4 4 9 (by norm_num) (by norm_num) (by norm_num)
      none 440 anchorRatios rfl
  rw [calculate_frequencies_some hbase]
  have hlen : (make_notes 4 4 (refA4 ℚ) 440).length = 12 := by
    have := makeNotesFrom_length (refA4 ℚ) (440 : ℚ) (4 + 1 - 4 : ℤ).toNat 4
    simpa [make_notes] using this
  rw [hlen, Option.map_some']
  rw [range_map_getD 12 9 _ 0 (by norm_num)]
  rw [note_freq_pos_idx _ _ 9 (by norm_num)]
  norm_num [anchorRatios]

/-- C6 counterexample: the claim quantifies over every temperament with a
12-entry positive ratio table, but with the positive table `[2, 1, ..., 1]`
over octaves 4-5 and reference A4 = 440, the computed frequency at index 12 is
3520 while the frequency at index 0 is 880, a ratio of 4 rather than 2
(the in-place overwrite of the first note makes `frequencies[0] = ratios[0] *
base` but `frequencies[12] = ratios[0] * 2 * (ratios[0] * base)`). -/
theorem c6_counterexample_ratio0_not_one :
    ((calculate_frequencies (make_notes 4 5 (refA4 ℚ) 440) anchorRatios (refA4 ℚ) 440).map
      fun fs => fs.getD 12 0 / fs.getD 0 0) = some 4 ∧ (4 : ℚ) ≠ 2 := by
  refine ⟨?_, by norm_num⟩
  have hbase : calculate_base_freq (make_notes 4 5 (refA4 ℚ) 440) anchorRatios (refA4 ℚ) 440 =
      some ((2 : ℚ) ^ ((4 : ℤ) - 4) * 440 / anchorRatios.getD 9 0) :=
    calculate_base_freq_make_notes 4 5 4 9 (by norm_num) (by norm_num) (by norm_num)
      none 440 anchorRatios rfl
  rw [calculate_frequencies_some hbase]
  have hlen : (make_notes 4 5 (refA4 ℚ) 440).length = 24 := by
    have := makeNotesFrom_length (refA4 ℚ) (440 : ℚ) (5 + 1 - 4 : ℤ).toNat 4
    simpa [make_notes] using this
  rw [hlen, Option.map_some']
  rw [range_map_getD 24 12 _ 0 (by norm_num), range_map_getD 24 0 _ 0 (by norm_num)]
  rw [note_freq_pos_idx _ _ 12 (by norm_num), note_freq_zero]
  norm_num [anchorRatios]

/-- C9 counterexample: the claim says assigning any `Note` value to
`reference_note` succeeds, but assigning `Note('A', 9)` to a temperament whose
table covers only octave 4 raises: `_calculate_frequencies` calls
`notes.index(...)`, which raises `ValueError` because the new reference note is
not in the (stale) note table. -/
theorem c9_counterexample_note_outside_table :
    exceptErrStr (set_reference_note justTemperament44 (.note ⟨"A", 9, none⟩)) =
      some "ValueError: reference note is not in the note list" := by
  decide

/-- C5 (amended): for every temperament with a 12-entry positive ratio table
whose first entry is 1 (the spec's `ratios[0] == 1.0` invariant, which the
claim dropped) and whose reference note octave lies within
`[min_octave, max_octave]`, the unique note of the generated table whose tone
and octave equal the reference note's sits at index
`(refOctave - minOctave) * 12 + k` (with `k` the tone index) and is assigned
exactly the reference frequency. -/
theorem c5_reference_frequency_reproduced {K : Type} [LinearOrderedField K]
    (minO maxO refO : ℤ) (k : ℕ) (ratios : List K) (rf : K) (hk : k < 12)
    (hlo : minO ≤ refO) (hhi : refO ≤ maxO) (hr12 : ratios.length = 12)
    (hpos : ∀ r ∈ ratios, 0 < r) (h1 : ratios.getD 0 0 = 1) :
    ((make_notes minO maxO (⟨TONES.getD k "", refO, none⟩ : Note K) rf)[(refO - minO).toNat
          * 12 + k]?).map (fun n => (n.tone, n.octave)) = some (TONES.getD k "", refO) ∧
      (∀ j, j < (make_notes minO maxO (⟨TONES.getD k "", refO, none⟩ : Note K) rf).length →
        ∀ n, (make_notes minO maxO (⟨TONES.getD k "", refO, none⟩ : Note K) rf)[j]? = some n →
          n.tone = TONES.getD k "" → n.octave = refO → j = (refO - minO).toNat * 12 + k) ∧
      ((calculate_frequencies
          (make_notes minO maxO (⟨TONES.getD k "", refO, none⟩ : Note K) rf) ratios
          (⟨TONES.getD k "", refO, none⟩ : Note K) rf).map
        fun fs => fs.getD ((refO - minO).toNat * 12 + k) 0) = some rf := by
  have hlen : (make_notes minO maxO (⟨TONES.getD k "", refO, none⟩ : Note K) rf).length =
      (maxO + 1 - minO).toNat * 12 := makeNotesFrom_length _ rf _ minO
  have hmod : ((refO - minO).toNat * 12 + k) % 12 = k := by omega
  have hdiv : ((refO - minO).toNat * 12 + k) / 12 = (refO - minO).toNat := by omega
  refine ⟨?_, ?_, ?_⟩
  · rw [make_notes_getElem? _ _ _ rf _ (by omega)]
    rw [hmod, hdiv]
    have hoct : minO + (((refO - minO).toNat : ℕ) : ℤ) = refO := by omega
    rw [hoct]
    split <;> simp
  · intro j hj n hn ht ho
    rw [hlen] at hj
    rw [make_notes_getElem? _ _ _ rf _ hj] at hn
    have hn2 := Option.some.inj hn
    have htone : n.tone = TONES.getD (j % 12) "" := by
      rw [← hn2]
      split <;> rfl
    have hoct : n.octave = minO + ((j / 12 : ℕ) : ℤ) := by
      rw [← hn2]
      split <;> rfl
    have hjk : j % 12 = k := TONES_getD_inj _ (by omega) _ hk (by rw [← htone, ht])
    have hjd : (j / 12 : ℕ) = (refO - minO).toNat := by
      rw [hoct] at ho
      omega
    omega
  · have hrk0 : ratios.getD k 0 ≠ 0 := by
      have hmem : ratios.getD k 0 ∈ ratios := by
        rw [List.getD_eq_getElem?_getD,
          List.getElem?_eq_getElem (by omega : k < ratios.length)]
        exact List.getElem_mem _
      exact ne_of_gt (hpos _ hmem)
    have hbase : calculate_base_freq
          (make_notes minO maxO (⟨TONES.getD k "", refO, none⟩ : Note K) rf) ratios
          (⟨TONES.getD k "", refO, none⟩ : Note K) rf =
        some ((2 : K) ^ (minO - refO) * rf / ratios.getD k 0) :=
      calculate_base_freq_make_notes minO maxO refO k hk hlo hhi none rf ratios hr12
    rw [calculate_frequencies_some hbase, Option.map_some', hlen]
    rw [range_map_getD _ _ _ 0 (by omega)]
    by_cases hp0 : (refO - minO).toNat * 12 + k = 0
    · have hkz : k = 0 := by omega
      have hoz : refO = minO := by omega
      rw [hp0, note_freq_zero]
      subst hkz hoz
      rw [h1] at hrk0 ⊢
      rw [sub_self, zpow_zero]
      field_simp
    · rw [note_freq_pos_idx _ _ _ hp0, hr12]
      rw [hmod, hdiv, h1, one_mul]
      have hcast : (((refO - minO).toNat : ℕ) : ℤ) = refO - minO := by omega
      have hpow : (2 : K) ^ ((refO - minO).toNat : ℕ) = (2 : K) ^ ((refO - minO : ℤ)) := by
        rw [← zpow_natCast, hcast]
      rw [hpow]
      rw [div_eq_mul_inv, mul_comm ((2 : K) ^ (minO - refO : ℤ)) rf]
      rw [show (minO - refO : ℤ) = -(refO - minO) by ring, zpow_neg]
      have hrk0q : ratios[k]?.getD 0 ≠ 0 := by
        rw [← List.getD_eq_getElem?_getD]
        exact hrk0
      have ha : ((2 : K) ^ ((refO - minO : ℤ))) ≠ 0 := zpow_ne_zero _ (by norm_num)
      field_simp
      ring

/-- C5 witness: a Just-style temperament over octave 4 with the all-ones ratio
table and reference A4 = 440 assigns index 9 (the note A4) exactly 440. -/
theorem c5_reference_frequency_reproduced_witness :
    ((calculate_frequencies (make_notes 4 4 (refA4 ℚ) 440) unitRatios (refA4 ℚ) 440).map
      fun fs => fs.getD 9 0) = some 440 :=
  (c5_reference_frequency_reproduced 4 4 4 9 unitRatios 440 (by norm_num) (by norm_num)
    (by norm_num) rfl
    (fun r hr => by
      have hr1 : r = 1 := List.eq_of_mem_replicate hr
      rw [hr1]
      norm_num)
    rfl).2.2

/-- C6 (amended): for every temperament whose 12-entry ratio table is positive
with first entry 1 (the spec's `ratios[0] == 1.0` invariant, which the claim
dropped) and whose reference frequency is positive, whenever the frequency
computation succeeds the computed frequency at any index `j ≥ 12` is exactly
twice the frequency twelve positions earlier, so their quotient is 2. -/
theorem c6_octave_doubling {K : Type} [LinearOrderedField K] (notes : List (Note K))
    (ratios : List K) (ref : Note K) (rf : K) (fs : List K) (j : ℕ)
    (hr12 : ratios.length = 12) (hpos : ∀ r ∈ ratios, 0 < r)
    (h1 : ratios.getD 0 0 = 1) (hrf : 0 < rf)
    (hfs : calculate_frequencies notes ratios ref rf = some fs)
    (hj12 : 12 ≤ j) (hjlen : j < fs.length) :
    fs.getD j 0 / fs.getD (j - 12) 0 = 2 := by
  cases hb : calculate_base_freq notes ratios ref rf with
  | none =>
    rw [calculate_frequencies, hb] at hfs
    simp at hfs
  | some b =>
    have hbpos : 0 < b := by
      unfold calculate_base_freq at hb
      dsimp only at hb
      split at hb
      · have hval := Option.some.inj hb
        rename_i hguard
        have hidx : (notes.findIdx fun n => noteEq n ref) % ratios.length < ratios.length := by
          rw [hr12]
          omega
        have hmem : ratios.getD ((notes.findIdx fun n => noteEq n ref) % ratios.length) 0
            ∈ ratios := by
          rw [List.getD_eq_getElem?_getD, List.getElem?_eq_getElem hidx]
          exact List.getElem_mem _
        have hden : 0 < ratios.getD ((notes.findIdx fun n => noteEq n ref) %
            ratios.length) 0 := hpos _ hmem
        rw [← hval]
        have hzp : (0 : K) < (2 : K) ^ ((notes.getD 0 (noNote K)).octave - ref.octave) :=
          zpow_pos (by norm_num) _
        positivity
      · exact absurd hb (by simp)
    have hfs2 := calculate_frequencies_some hb
    rw [hfs2] at hfs
    have hfseq := Option.some.inj hfs
    have hfslen : fs.length = notes.length := by
      rw [← hfseq]
      simp
    rw [← hfseq]
    rw [range_map_getD _ _ _ 0 (by omega), range_map_getD _ _ _ 0 (by omega)]
    have hb0 : b ≠ 0 := ne_of_gt hbpos
    by_cases hz : j - 12 = 0
    · have hj : j = 12 := by omega
      rw [hz, hj, note_freq_zero, note_freq_pos_idx _ _ 12 (by norm_num), hr12]
      have h0 : (12 : ℕ) % 12 = 0 := by norm_num
      have h12 : (12 : ℕ) / 12 = 1 := by norm_num
      rw [h0, h12, h1, pow_one, one_mul, one_mul]
      rw [mul_div_assoc, div_self hb0, mul_one]
    · have hrj : 0 < ratios.getD (j % 12) 0 := by
        have hmem : ratios.getD (j % 12) 0 ∈ ratios := by
          rw [List.getD_eq_getElem?_getD,
            List.getElem?_eq_getElem (by omega : j % 12 < ratios.length)]
          exact List.getElem_mem _
        exact hpos _ hmem
      rw [note_freq_pos_idx _ _ j (by omega), note_freq_pos_idx _ _ (j - 12) hz, hr12]
      have hmod : (j - 12) % 12 = j % 12 := by omega
      have hdiv : j / 12 = (j - 12) / 12 + 1 := by omega
      rw [hmod, hdiv, h1, one_mul, pow_succ]
      have hden : ratios.getD (j % 12) 0 * (2 : K) ^ ((j - 12) / 12) * b ≠ 0 :=
        mul_ne_zero (mul_ne_zero (ne_of_gt hrj) (pow_ne_zero _ (by norm_num))) hb0
      rw [div_eq_iff hden]
      ring

/-- C6 witness: with the all-ones ratio table over octaves 4-5 anchored at
A4 = 440, the frequency at index 12 divided by the frequency at index 0 is 2. -/
theorem c6_octave_doubling_witness :
    ((List.range (make_notes 4 5 (refA4 ℚ) 440).length).map
        (fun j => note_freq unitRatios ((2 : ℚ) ^ ((4 : ℤ) - 4) * 440 / 1) j)).getD 12 0 /
      ((List.range (make_notes 4 5 (refA4 ℚ) 440).length).map
        (fun j => note_freq unitRatios ((2 : ℚ) ^ ((4 : ℤ) - 4) * 440 / 1) j)).getD 0 0 = 2 := by
  refine c6_octave_doubling (make_notes 4 5 (refA4 ℚ) 440) unitRatios (refA4 ℚ) 440 _ 12
    rfl
    (fun r hr => by
      have hr1 : r = 1 := List.eq_of_mem_replicate hr
      rw [hr1]
      norm_num)
    rfl (by norm_num) ?_ (by norm_num) ?_
  · exact calculate_frequencies_some (by rfl)
  · rw [List.length_map, List.length_range, make_notes_length]
    norm_num

theorem npDiv_of_ne {x y : ℝ} (hy : y ≠ 0) : npDiv x y = .fin (x / y) := by
  unfold npDiv
  rw [if_neg hy]

theorem npLog2_fin (x : ℝ) :
    npLog2 (.fin x) =
      if x < 0 then .nan else if x = 0 then .ninf else .fin (Real.logb 2 x) := rfl

theorem npLog2_fin_pos {x : ℝ} (hx : 0 < x) : npLog2 (.fin x) = .fin (Real.logb 2 x) := by
  rw [npLog2_fin, if_neg (not_lt.mpr hx.le), if_neg (ne_of_gt hx)]

theorem graph_cents_of_pos {x y : ℝ} (hx : 0 < x) (hy : 0 < y) :
    graph_cents x y = .ok (pyTrunc (1200 * Real.logb 2 (x / y))) := by
  unfold graph_cents
  rw [npDiv_of_ne (ne_of_gt hy), npLog2_fin_pos (div_pos hx hy)]
  rfl


theorem graph_cents_of_zero_peak {y : ℝ} (hy : 0 < y) :
    graph_cents 0 y = .error "OverflowError: cannot convert float infinity to integer" := by
  unfold graph_cents
  rw [npDiv_of_ne (ne_of_gt hy), zero_div]
  show pyInt (mul1200 (npLog2 (.fin 0))) = _
  rw [npLog2_fin, if_neg (by norm_num : ¬(0 : ℝ) < 0), if_pos rfl]
  rfl

theorem graph_cents_of_zero_desired {x : ℝ} (hx : 0 < x) :
    graph_cents x 0 = .error "OverflowError: cannot convert float infinity to integer" := by
  unfold graph_cents npDiv
  rw [if_pos rfl, if_neg (ne_of_gt hx), if_pos hx]
  rfl

theorem graph_cents_of_neg_desired {x y : ℝ} (hx : 0 < x) (hy : y < 0) :
    graph_cents x y = .error "ValueError: cannot convert float NaN to integer" := by
  unfold graph_cents
  rw [npDiv_of_ne (ne_of_lt hy)]
  have hneg : x / y < 0 := div_neg_of_pos_of_neg hx hy
  rw [npLog2_fin, if_pos hneg]
  rfl

theorem logb_ratio_89_88_lower : (13 : ℝ) / 800 ≤ Real.logb 2 (89 / 88) := by
  have hb : (1 : ℝ) < 2 := by norm_num
  have hy : (0 : ℝ) < 89 / 88 := by norm_num
  rw [Real.le_logb_iff_rpow_le hb hy]
  have hnat : 2 ^ 13 * 88 ^ 800 ≤ 89 ^ 800 := by norm_num
  have hreal : (2 : ℝ) ^ (13 : ℕ) * (88 : ℝ) ^ (800 : ℕ) ≤ (89 : ℝ) ^ (800 : ℕ) := by
    exact_mod_cast hnat
  have hkey : ((2 : ℝ) ^ ((13 : ℝ) / 800)) ^ (800 : ℕ) ≤ ((89 : ℝ) / 88) ^ (800 : ℕ) := by
    have hL : ((2 : ℝ) ^ ((13 : ℝ) / 800)) ^ (800 : ℕ) = (2 : ℝ) ^ (13 : ℕ) := by
      rw [← Real.rpow_natCast ((2 : ℝ) ^ ((13 : ℝ) / 800)) 800, ← Real.rpow_mul (by norm_num)]
      norm_num
    have hR : ((89 : ℝ) / 88) ^ (800 : ℕ) = (89 : ℝ) ^ (800 : ℕ) / (88 : ℝ) ^ (800 : ℕ) :=
      div_pow 89 88 800
    rw [hL, hR, le_div_iff₀ (by positivity)]
    exact hreal
  exact le_of_pow_le_pow_left₀ (by norm_num) (by positivity) hkey

theorem logb_ratio_89_88_upper : Real.logb 2 (89 / 88) < (1 : ℝ) / 60 := by
  have hb : (1 : ℝ) < 2 := by norm_num
  have hy : (0 : ℝ) < 89 / 88 := by norm_num
  rw [Real.logb_lt_iff_lt_rpow hb hy]
  have hnat : 89 ^ 60 < 2 * 88 ^ 60 := by norm_num
  have hreal : (89 : ℝ) ^ (60 : ℕ) < 2 * (88 : ℝ) ^ (60 : ℕ) := by exact_mod_cast hnat
  have hkey : ((89 : ℝ) / 88) ^ (60 : ℕ) < ((2 : ℝ) ^ ((1 : ℝ) / 60)) ^ (60 : ℕ) := by
    have hL : ((2 : ℝ) ^ ((1 : ℝ) / 60)) ^ (60 : ℕ) = (2 : ℝ) := by
      rw [← Real.rpow_natCast ((2 : ℝ) ^ ((1 : ℝ) / 60)) 60, ← Real.rpow_mul (by norm_num)]
      norm_num
    have hR : ((89 : ℝ) / 88) ^ (60 : ℕ) = (89 : ℝ) ^ (60 : ℕ) / (88 : ℝ) ^ (60 : ℕ) :=
      div_pow 89 88 60
    rw [hL, hR, div_lt_iff₀ (by positivity)]
    calc (89 : ℝ) ^ (60 : ℕ) < 2 * (88 : ℝ) ^ (60 : ℕ) := hreal
    _ = 2 * (88 : ℝ) ^ (60 : ℕ) := rfl
  exact lt_of_pow_lt_pow_left₀ 60 (by positivity) hkey

theorem cents_445_440_bounds :
    (39 : ℝ) / 2 ≤ 1200 * Real.logb 2 ((445 : ℝ) / 440) ∧
      1200 * Real.logb 2 ((445 : ℝ) / 440) < 20 := by
  have hq : (445 : ℝ) / 440 = 89 / 88 := by norm_num
  rw [hq]
  constructor
  · have := logb_ratio_89_88_lower
    nlinarith
  · have := logb_ratio_89_88_upper
    nlinarith

theorem graph_cents_at_445_440 : graph_cents 445 440 = .ok 19 := by
  rw [graph_cents_of_pos (by norm_num : (0:ℝ) < 445) (by norm_num : (0:ℝ) < 440)]
  have hb := cents_445_440_bounds
  have h0 : (0 : ℝ) ≤ 1200 * Real.logb 2 ((445 : ℝ) / 440) := by nlinarith [hb.1]
  unfold pyTrunc
  rw [if_pos h0]
  have hfl : ⌊1200 * Real.logb 2 ((445 : ℝ) / 440)⌋ = 19 := by
    rw [Int.floor_eq_iff]
    constructor
    · push_cast
      nlinarith [hb.1]
    · push_cast
      nlinarith [hb.2]
  rw [hfl]

theorem round_cents_445_440 : round (1200 * Real.logb 2 ((445 : ℝ) / 440)) = 20 := by
  have hb := cents_445_440_bounds
  rw [round_eq, Int.floor_eq_iff]
  constructor
  · push_cast
    nlinarith [hb.1]
  · push_cast
    nlinarith [hb.2]

/-- C2 counterexample: the claim says the pitch-matching step returns 0 cents
when `peakFreq = 0`, but `int(1200 * np.log2(0 / 440))` is `int(-inf)`, which
raises `OverflowError`; the computation does not return `0`. -/
theorem c2_counterexample_zero_peak_raises : graph_cents 0 440 ≠ .ok 0 := by
  rw [graph_cents_of_zero_peak (by norm_num : (0:ℝ) < 440)]
  intro h
  exact Except.noConfusion h

/-- C2 (amended): when the cents computation of `Tuner.graph` is undefined
(`peakFreq = 0` with a positive table frequency gives `log2(0) = -inf`, a
positive peak over a zero table frequency gives `log2(inf) = inf`, and a
negative table frequency gives `log2` of a negative number, NaN), the Python
`int()` conversion raises (`OverflowError` for infinities, `ValueError` for
NaN) instead of returning 0 cents; in particular `peakFreq = 0` raises rather
than returning `cents == 0`. -/
theorem c2_undefined_cents_raises :
    (∀ y : ℝ, 0 < y →
        graph_cents 0 y = .error "OverflowError: cannot convert float infinity to integer") ∧
      (∀ x : ℝ, 0 < x →
        graph_cents x 0 = .error "OverflowError: cannot convert float infinity to integer") ∧
      (∀ x y : ℝ, 0 < x → y < 0 →
        graph_cents x y = .error "ValueError: cannot convert float NaN to integer") := by
  refine ⟨fun y hy => graph_cents_of_zero_peak hy,
    fun x hx => graph_cents_of_zero_desired hx,
    fun _ _ hx hy => graph_cents_of_neg_desired hx hy⟩

/-- C2 witness: at peak frequency 0 against table frequency 440 the computation
raises `OverflowError`. -/
theorem c2_undefined_cents_raises_witness :
    graph_cents 0 440 = .error "OverflowError: cannot convert float infinity to integer" :=
  c2_undefined_cents_raises.1 440 (by norm_num)

/-- C3 counterexample: the claim says the reported cents deviation equals
`round(1200 * log2(peakFreq / desiredFreq))`, but at `peakFreq = 445` against
`desiredFreq = 440` the code computes `int(19.56...) = 19` while rounding gives
20. -/
theorem c3_counterexample_trunc_ne_round :
    graph_cents 445 440 ≠ .ok (round (1200 * Real.logb 2 ((445 : ℝ) / 440))) := by
  rw [graph_cents_at_445_440, round_cents_445_440]
  intro h
  have h19 := Except.ok.inj h
  norm_num at h19

/-- C3 (amended): for every positive peak frequency and positive matched table
frequency, the reported cents deviation equals the truncation toward zero
(Python `int()`, not `round`) of `1200 * log2(peakFreq / desiredFreq)`; in
particular `peakFreq = 445` against the A4 table frequency 440 of an Equal
temperament anchored at A4 = 440 reports 19 cents (1200 * log2(445/440) is
about 19.56). -/
theorem c3_cents_formula_trunc :
    (∀ x y : ℝ, 0 < x → 0 < y →
        graph_cents x y = .ok (pyTrunc (1200 * Real.logb 2 (x / y)))) ∧
      graph_cents 445 440 = .ok 19 :=
  ⟨fun _ _ hx hy => graph_cents_of_pos hx hy, graph_cents_at_445_440⟩

/-- C3 witness: at peak frequency 2 against table frequency 1 the reported
value is `int(1200 * log2 2) = 1200`. -/
theorem c3_cents_formula_trunc_witness : graph_cents 2 1 = .ok 1200 := by
  have h := c3_cents_formula_trunc.1 2 1 (by norm_num) (by norm_num)
  rw [h]
  have h2 : (2 : ℝ) / 1 = 2 := by norm_num
  rw [h2, Real.logb_self_eq_one (by norm_num)]
  unfold pyTrunc
  rw [if_pos (by norm_num : (0:ℝ) ≤ 1200 * 1)]
  norm_num

theorem map_frequency_zipWith {K : Type} :
    ∀ (ns : List (Note K)) (fs : List K), fs.length = ns.length →
      (List.zipWith (fun n f => { n with frequency := some f }) ns fs).map Note.frequency =
        fs.map some := by
  intro ns
  induction ns with
  | nil =>
    intro fs hfs
    have : fs = [] := List.eq_nil_of_length_eq_zero hfs
    rw [this]
    rfl
  | cons n t ih =>
    intro fs hfs
    cases fs with
    | nil => simp at hfs
    | cons f ft =>
      simp only [List.zipWith_cons_cons, List.map_cons, List.cons.injEq]
      exact ⟨trivial, ih ft (by simpa using hfs)⟩

theorem findIdx_noteEq_zipWith {K : Type} (ref : Note K) :
    ∀ (ns : List (Note K)) (fs : List K), fs.length = ns.length →
      (List.zipWith (fun n f => { n with frequency := some f }) ns fs).findIdx
          (fun n => noteEq n ref) =
        ns.findIdx (fun n => noteEq n ref) := by
  intro ns
  induction ns with
  | nil =>
    intro fs hfs
    rfl
  | cons n t ih =>
    intro fs hfs
    cases fs with
    | nil => simp at hfs
    | cons f ft =>
      simp only [List.zipWith_cons_cons]
      rw [List.findIdx_cons, List.findIdx_cons]
      have hpred : noteEq ({ n with frequency := some f }) ref = noteEq n ref := rfl
      rw [hpred, ih ft (by simpa using hfs)]

theorem recalc_some {K : Type} [LinearOrderedField K] (t : Temperament K)
    (hfind : (t.notes.findIdx fun n => noteEq n t.reference_note) < t.notes.length)
    (hlen : 0 < t.ratios.length) :
    ∃ fs, calculate_frequencies t.notes t.ratios t.reference_note t.reference_freq = some fs ∧
      fs.length = t.notes.length ∧
      recalc t =
        some ({ t with
          notes := List.zipWith (fun n f => { n with frequency := some f }) t.notes fs }) := by
  have hb : calculate_base_freq t.notes t.ratios t.reference_note t.reference_freq =
      some ((2 : K) ^ ((t.notes.getD 0 (noNote K)).octave - t.reference_note.octave) *
        t.reference_freq /
        t.ratios.getD ((t.notes.findIdx fun n => noteEq n t.reference_note) %
          t.ratios.length) 0) := by
    unfold calculate_base_freq
    dsimp only
    rw [if_pos ⟨hfind, hlen⟩]
  refine ⟨_, calculate_frequencies_some hb, by simp, ?_⟩
  unfold recalc
  rw [calculate_frequencies_some hb]
  rfl

theorem roundtrip_ratios_cents (rs : List ℝ) (hpos : ∀ r ∈ rs, 0 < r) :
    (rs.map (fun r => 1200 * Real.logb 2 r)).map (fun c => (2 : ℝ) ^ (c / 1200)) = rs := by
  rw [List.map_map]
  have hcong : ∀ r ∈ rs,
      ((fun c => (2 : ℝ) ^ (c / 1200)) ∘ (fun r => 1200 * Real.logb 2 r)) r = r := by
    intro r hr
    simp only [Function.comp]
    have h12 : 1200 * Real.logb 2 r / 1200 = Real.logb 2 r :=
      mul_div_cancel_left₀ _ (by norm_num : (1200 : ℝ) ≠ 0)
    rw [h12]
    exact Real.rpow_logb (by norm_num) (by norm_num) (hpos r hr)
  rw [List.map_congr_left hcong]
  exact List.map_id rs

theorem roundtrip_cents_ratios (cs : List ℝ) :
    (cs.map (fun c => (2 : ℝ) ^ (c / 1200))).map (fun r => 1200 * Real.logb 2 r) = cs := by
  rw [List.map_map]
  have hcong : ∀ c ∈ cs,
      ((fun r => 1200 * Real.logb 2 r) ∘ (fun c => (2 : ℝ) ^ (c / 1200))) c = c := by
    intro c _
    simp only [Function.comp]
    rw [Real.logb_rpow (by norm_num) (by norm_num)]
    exact mul_div_cancel₀ _ (by norm_num : (1200 : ℝ) ≠ 0)
  rw [List.map_congr_left hcong]
  exact List.map_id cs

/-- C7: setting `ratios` recomputes `cents` as `1200 * log2(ratios[i])`, setting
`cents` recomputes `ratios` as `2 ^ (cents[i] / 1200)`, both setters recompute
the stored frequencies from the current fields before returning, and for every
12-entry positive ratio table (and every 12-entry cents table) applying one
setter and then the other recovers the original table, exactly in real
arithmetic and in particular to within 1e-9. -/
theorem c7_ratios_cents_setters_roundtrip (t : Temperament ℝ) (rs cs : List ℝ)
    (hr12 : rs.length = 12) (hpos : ∀ r ∈ rs, 0 < r) (hc12 : cs.length = 12)
    (hfind : (t.notes.findIdx fun n => noteEq n t.reference_note) < t.notes.length) :
    (∃ t1 fs1, set_ratios t rs = some t1 ∧ t1.ratios = rs ∧
      t1.cents = rs.map (fun r => 1200 * Real.logb 2 r) ∧
      calculate_frequencies t.notes rs t.reference_note t.reference_freq = some fs1 ∧
      frequencies t1 = fs1.map some ∧
      ∃ t2, set_cents t1 t1.cents = some t2 ∧ t2.ratios = rs ∧
        ∀ i < 12, |t2.ratios.getD i 0 - rs.getD i 0| ≤ 1e-9) ∧
    (∃ t1 fs1, set_cents t cs = some t1 ∧ t1.cents = cs ∧
      t1.ratios = cs.map (fun c => (2 : ℝ) ^ (c / 1200)) ∧
      calculate_frequencies t.notes t1.ratios t.reference_note t.reference_freq = some fs1 ∧
      frequencies t1 = fs1.map some ∧
      ∃ t2, set_ratios t1 t1.ratios = some t2 ∧ t2.cents = cs ∧
        ∀ i < 12, |t2.cents.getD i 0 - cs.getD i 0| ≤ 1e-9) := by
  constructor
  · obtain ⟨fs1, hcf, hfslen, hrec⟩ := recalc_some ({ t with ratios := rs, cents := rs.map fun r => 1200 * Real.logb 2 r }) hfind (by dsimp only; rw [hr12]; norm_num)
    refine ⟨_, fs1, hrec, rfl, rfl, hcf, map_frequency_zipWith t.notes fs1 hfslen, ?_⟩
    have hfind2 : ((List.zipWith (fun n f => { n with frequency := some f }) t.notes fs1).findIdx fun n => noteEq n t.reference_note) < (List.zipWith (fun n f => { n with frequency := some f }) t.notes fs1).length := by
      rw [findIdx_noteEq_zipWith t.reference_note t.notes fs1 hfslen]
      rw [List.length_zipWith, hfslen, Nat.min_self]
      exact hfind
    obtain ⟨fs2, hcf2, hfslen2, hrec2⟩ := recalc_some ({ t with cents := rs.map fun r => 1200 * Real.logb 2 r, ratios := (rs.map fun r => 1200 * Real.logb 2 r).map fun c => (2 : ℝ) ^ (c / 1200), notes := List.zipWith (fun n f => { n with frequency := some f }) t.notes fs1 }) hfind2 (by dsimp only; rw [List.length_map, List.length_map, hr12]; norm_num)
    refine ⟨_, hrec2, roundtrip_ratios_cents rs hpos, ?_⟩
    intro i _
    show |((rs.map fun r => 1200 * Real.logb 2 r).map fun c => (2 : ℝ) ^ (c / 1200)).getD i 0 - rs.getD i 0| ≤ 1e-9
    rw [roundtrip_ratios_cents rs hpos]
    simp
    norm_num
  · obtain ⟨fs1, hcf, hfslen, hrec⟩ := recalc_some ({ t with cents := cs, ratios := cs.map fun c => (2 : ℝ) ^ (c / 1200) }) hfind (by dsimp only; rw [List.length_map, hc12]; norm_num)
    refine ⟨_, fs1, hrec, rfl, rfl, hcf, map_frequency_zipWith t.notes fs1 hfslen, ?_⟩
    have hfind2 : ((List.zipWith (fun n f => { n with frequency := some f }) t.notes fs1).findIdx fun n => noteEq n t.reference_note) < (List.zipWith (fun n f => { n with frequency := some f }) t.notes fs1).length := by
      rw [findIdx_noteEq_zipWith t.reference_note t.notes fs1 hfslen]
      rw [List.length_zipWith, hfslen, Nat.min_self]
      exact hfind
    obtain ⟨fs2, hcf2, hfslen2, hrec2⟩ := recalc_some ({ t with ratios := cs.map fun c => (2 : ℝ) ^ (c / 1200), cents := (cs.map fun c => (2 : ℝ) ^ (c / 1200)).map fun r => 1200 * Real.logb 2 r, notes := List.zipWith (fun n f => { n with frequency := some f }) t.notes fs1 }) hfind2 (by dsimp only; rw [List.length_map, hc12]; norm_num)
    refine ⟨_, hrec2, roundtrip_cents_ratios cs, ?_⟩
    intro i _
    show |((cs.map fun c => (2 : ℝ) ^ (c / 1200)).map fun r => 1200 * Real.logb 2 r).getD i 0 - cs.getD i 0| ≤ 1e-9
    rw [roundtrip_cents_ratios cs]
    simp
    norm_num

/-- C7 witness: setting the all-twos ratio table on a one-note temperament
succeeds and stores the cents table `1200 * log2 2 = 1200` twelve times. -/
theorem c7_ratios_cents_setters_roundtrip_witness :
    ∃ t1, set_ratios tinyTemperamentR (List.replicate 12 2) = some t1 ∧
      t1.cents = (List.replicate 12 (2 : ℝ)).map (fun r => 1200 * Real.logb 2 r) := by
  obtain ⟨t1, fs1, hset, hrat, hcents, _, _, _⟩ :=
    (c7_ratios_cents_setters_roundtrip tinyTemperamentR (List.replicate 12 2)
      (List.replicate 12 100) (by simp)
      (fun r hr => by
        rw [List.eq_of_mem_replicate hr]
        norm_num)
      (by simp) (by decide)).1
  exact ⟨t1, hset, hcents⟩

theorem argmaxVal_spec {K : Type} [LinearOrder K] :
    ∀ (l : List K) (j : ℕ) (m : K), argmaxVal l = some (j, m) →
      l[j]? = some m ∧ (∀ i, i < l.length → ∀ x, l[i]? = some x → x ≤ m) ∧
        (∀ i, i < j → ∀ x, l[i]? = some x → x < m) := by
  intro l
  induction l with
  | nil =>
    intro j m h
    exact absurd h (by simp [argmaxVal])
  | cons a t ih =>
    intro j m h
    rw [argmaxVal] at h
    cases hrec : argmaxVal t with
    | none =>
      rw [hrec] at h
      dsimp only at h
      simp only [Option.some.injEq, Prod.mk.injEq] at h
      obtain ⟨hj, hm⟩ := h
      subst hm
      have hj0 : j = 0 := hj.symm
      subst hj0
      cases t with
      | cons b t2 =>
        exfalso
        rw [argmaxVal] at hrec
        cases h2 : argmaxVal t2 with
        | none =>
          rw [h2] at hrec
          dsimp only at hrec
          exact Option.noConfusion hrec
        | some p =>
          obtain ⟨j3, m3⟩ := p
          rw [h2] at hrec
          dsimp only at hrec
          split at hrec <;> exact Option.noConfusion hrec
      | nil =>
        refine ⟨by simp, ?_, ?_⟩
        · intro i hi x hx
          have hi0 : i = 0 := by simpa using hi
          subst hi0
          simp at hx
          rw [← hx]
        · intro i hi
          omega
    | some p =>
      obtain ⟨j2, m2⟩ := p
      rw [hrec] at h
      dsimp only at h
      have ihs := ih j2 m2 hrec
      by_cases hc : a < m2
      · rw [if_pos hc] at h
        simp only [Option.some.injEq, Prod.mk.injEq] at h
        obtain ⟨hj, hm⟩ := h
        subst hj
        subst hm
        refine ⟨by simpa using ihs.1, ?_, ?_⟩
        · intro i hi x hx
          cases i with
          | zero =>
            simp at hx
            rw [← hx]
            exact le_of_lt hc
          | succ i2 =>
            rw [List.getElem?_cons_succ] at hx
            exact ihs.2.1 i2 (by simpa using hi) x hx
        · intro i hi x hx
          cases i with
          | zero =>
            simp at hx
            rw [← hx]
            exact hc
          | succ i2 =>
            rw [List.getElem?_cons_succ] at hx
            exact ihs.2.2 i2 (by omega) x hx
      · rw [if_neg hc] at h
        simp only [Option.some.injEq, Prod.mk.injEq] at h
        obtain ⟨hj, hm⟩ := h
        subst hj
        subst hm
        refine ⟨by simp, ?_, ?_⟩
        · intro i hi x hx
          cases i with
          | zero =>
            simp at hx
            rw [← hx]
          | succ i2 =>
            rw [List.getElem?_cons_succ] at hx
            exact le_trans (ihs.2.1 i2 (by simpa using hi) x hx) (not_lt.mp hc)
        · intro i hi
          omega

/-- C8: on a spectrum produced by a real-valued transform (so the retained real
part is even-symmetric, `fft[k] = fft[n-k]` for `0 < k < n`), the peak selected
by `fft.argmax()` in `Tuner.graph` lies in the first half of the spectrum
(`2 * j ≤ n`, so the mirrored negative-frequency half is never selected) and
its amplitude is the greatest over the whole spectrum. -/
theorem c8_dominant_peak_first_half_and_max {K : Type} [LinearOrder K]
    (fft : List K) (n j : ℕ) (m : K) (hn : n = fft.length)
    (hsym : ∀ k, 0 < k → k < n → fft[k]? = fft[n - k]?)
    (hargmax : argmaxVal fft = some (j, m)) :
    2 * j ≤ n ∧ fft[j]? = some m ∧ ∀ i, i < n → ∀ x, fft[i]? = some x → x ≤ m := by
  obtain ⟨hjm, hmax, hfirst⟩ := argmaxVal_spec fft j m hargmax
  subst hn
  refine ⟨?_, hjm, hmax⟩
  by_contra hcon
  push_neg at hcon
  have hjlen : j < fft.length := by
    by_contra h2
    push_neg at h2
    rw [List.getElem?_eq_none h2] at hjm
    exact Option.noConfusion hjm
  have hsymj := hsym (fft.length - j) (by omega) (by omega)
  have hback : fft.length - (fft.length - j) = j := by omega
  rw [hback] at hsymj
  have hlt : fft.length - j < j := by omega
  have := hfirst (fft.length - j) hlt m (by rw [hsymj]; exact hjm)
  exact lt_irrefl m this

/-- C8 witness: on the symmetric spectrum `[1, 5, 2, 5]` the selected peak is
index 1 (first half of 4 bins) with the maximal amplitude 5. -/
theorem c8_dominant_peak_first_half_and_max_witness :
    2 * 1 ≤ 4 ∧ ([1, 5, 2, 5] : List ℤ)[1]? = some 5 ∧
      ∀ i, i < 4 → ∀ x, ([1, 5, 2, 5] : List ℤ)[i]? = some x → x ≤ 5 :=
  c8_dominant_peak_first_half_and_max [1, 5, 2, 5] 4 1 5 rfl
    (fun k h1 h2 =>
      (by decide : ∀ k2 < 4, 0 < k2 →
        ([1, 5, 2, 5] : List ℤ)[k2]? = [1, 5, 2, 5][4 - k2]?) k h2 h1)
    (by decide)

/-- C9 (amended): assigning a non-`Note` value to `reference_note` raises
`ValueError` at assignment time (no silent coercion), and assigning a `Note`
that is present in the current note table succeeds, stores the note and
recomputes the frequencies before returning; a `Note` that is not in the table
makes the recomputation raise `ValueError` instead (see the counterexample). -/
theorem c9_reference_note_setter_validation {K : Type} [LinearOrderedField K]
    (t : Temperament K) :
    (∀ s, set_reference_note t (.other s) =
        .error ("ValueError: Reference note must be of the Note type, not " ++ s)) ∧
      ∀ nt : Note K, (t.notes.findIdx fun n => noteEq n nt) < t.notes.length →
        0 < t.ratios.length →
        ∃ t1 fs, set_reference_note t (.note nt) = .ok t1 ∧ t1.reference_note = nt ∧
          calculate_frequencies t.notes t.ratios nt t.reference_freq = some fs ∧
          frequencies t1 = fs.map some := by
  refine ⟨fun s => rfl, ?_⟩
  intro nt hfind hlen
  obtain ⟨fs, hcf, hfslen, hrec⟩ :=
    recalc_some ({ t with reference_note := nt }) hfind hlen
  refine ⟨{ t with reference_note := nt, notes := List.zipWith (fun n f => { n with frequency := some f }) t.notes fs }, fs, ?_, rfl, hcf, ?_⟩
  · unfold set_reference_note
    dsimp only
    rw [hrec]
  · exact map_frequency_zipWith t.notes fs hfslen

/-- C9 witness: assigning the `Note` A4 to a Just temperament over octave 4
succeeds and stores it as the reference note. -/
theorem c9_reference_note_setter_validation_witness :
    ∃ t1, set_reference_note justTemperament44 (.note (refA4 ℚ)) = .ok t1 ∧
      t1.reference_note = refA4 ℚ := by
  obtain ⟨t1, fs, hok, href, _, _⟩ :=
    (c9_reference_note_setter_validation justTemperament44).2 (refA4 ℚ)
      (by decide) (by decide)
  exact ⟨t1, hok, href⟩

/-- C10: `Note` equality is decided solely by the string form tone+octave: two
notes with the same tone and octave are equal regardless of their frequency
fields, a note compares equal to the plain string of its tone and octave
(`Note('A', 4) == 'A4'`), and the reference-note position lookup of
`_calculate_base_freq` depends only on this string form. -/
theorem c10_note_equality_by_repr :
    (∀ (tone : String) (o : ℤ) (f1 f2 : Option ℝ),
        noteEq (⟨tone, o, f1⟩ : Note ℝ) ⟨tone, o, f2⟩ = true) ∧
      noteEqStr (⟨"A", 4, none⟩ : Note ℝ) "A4" = true ∧
      ∀ (a b : Note ℝ) (ns : List (Note ℝ)), noteRepr a = noteRepr b →
        noteEq a b = true ∧
          ns.findIdx (fun n => noteEq n a) = ns.findIdx (fun n => noteEq n b) := by
  refine ⟨?_, by decide, ?_⟩
  · intro tone o f1 f2
    simp [noteEq, noteRepr]
  · intro a b ns h
    refine ⟨by simp [noteEq, h], ?_⟩
    have hfun : (fun n : Note ℝ => noteEq n a) = fun n => noteEq n b := by
      funext n
      simp [noteEq, h]
    rw [hfun]

/-- C10 witness: two A4 notes with different frequencies are equal, and the
note-list lookup gives the same index for both. -/
theorem c10_note_equality_by_repr_witness :
    noteEq (⟨"A", 4, some (1 : ℝ)⟩ : Note ℝ) ⟨"A", 4, some 2⟩ = true ∧
      ([⟨"C", 4, none⟩, ⟨"A", 4, some 3⟩] : List (Note ℝ)).findIdx
          (fun n => noteEq n ⟨"A", 4, some (1 : ℝ)⟩) =
        ([⟨"C", 4, none⟩, ⟨"A", 4, some 3⟩] : List (Note ℝ)).findIdx
          (fun n => noteEq n ⟨"A", 4, some 2⟩) := by
  have h := c10_note_equality_by_repr.2.2 ⟨"A", 4, some 1⟩ ⟨"A", 4, some 2⟩
    [⟨"C", 4, none⟩, ⟨"A", 4, some 3⟩] rfl
  exact ⟨h.1, h.2⟩
